import Mathlib

/-!
Verification development for the `vscode-sops` extension.

The development shallowly embeds the pure logic of `src/sopsHandler.ts` and
`src/SopsContext.ts`:
string heuristics become functions on `List Char`, the two `Map<string,
string>` fields become association lists with JavaScript `Map` semantics
(`set` keeps the position of an existing key, `delete` removes it), the
filesystem becomes an association list from paths to contents, and the
event handlers of `SopsContext` become a step function on an explicit
session-state record.  External effects (the `sops` subprocess, editor UI)
enter as parameters carrying their observable outcome.
-/

namespace VSCodeSops

/-! ## Association lists with JavaScript `Map` semantics -/

/-- Lookup of the value stored for key `k` (first entry wins, as in a
JavaScript `Map`, whose keys are unique). -/
def alookup (k : String) : List (String × String) → Option String
  | [] => none
  | (a, b) :: rest => if a = k then some b else alookup k rest

/-- `Map.set`: an existing key keeps its position and gets the new value, a
new key is appended at the end (JavaScript insertion order). -/
def ainsert (k v : String) : List (String × String) → List (String × String)
  | [] => [(k, v)]
  | (a, b) :: rest => if a = k then (k, v) :: rest else (a, b) :: ainsert k v rest

/-- `Map.delete`: remove every entry with key `k`. -/
def aerase (k : String) (l : List (String × String)) : List (String × String) :=
  l.filter (fun p => p.1 != k)

theorem ainsert_cons_self (k v b : String) (rest : List (String × String)) :
    ainsert k v ((k, b) :: rest) = (k, v) :: rest := by
  simp [ainsert]

theorem ainsert_cons_ne {a k : String} (hak : a ≠ k) (v b : String)
    (rest : List (String × String)) :
    ainsert k v ((a, b) :: rest) = (a, b) :: ainsert k v rest := by
  simp [ainsert, hak]

theorem aerase_cons_self (k b : String) (rest : List (String × String)) :
    aerase k ((k, b) :: rest) = aerase k rest := by
  simp [aerase]

theorem aerase_cons_ne {a k : String} (hak : a ≠ k) (b : String)
    (rest : List (String × String)) :
    aerase k ((a, b) :: rest) = (a, b) :: aerase k rest := by
  simp [aerase, hak]

theorem alookup_cons (a b x : String) (rest : List (String × String)) :
    alookup x ((a, b) :: rest) = if a = x then some b else alookup x rest := rfl

theorem alookup_ainsert (k v x : String) (l : List (String × String)) :
    alookup x (ainsert k v l) = if x = k then some v else alookup x l := by
  induction l with
  | nil =>
    show alookup x [(k, v)] = if x = k then some v else none
    rw [alookup_cons]
    by_cases hx : x = k
    · subst hx
      simp
    · rw [if_neg (Ne.symm hx), if_neg hx]
      rfl
  | cons p rest ih =>
    obtain ⟨a, b⟩ := p
    by_cases hak : a = k
    · subst hak
      rw [ainsert_cons_self, alookup_cons, alookup_cons]
      by_cases hx : a = x
      · subst hx
        simp
      · rw [if_neg hx, if_neg (Ne.symm hx), if_neg hx]
    · rw [ainsert_cons_ne hak, alookup_cons, alookup_cons]
      by_cases hx : a = x
      · subst hx
        rw [if_pos rfl, if_neg hak, if_pos rfl]
      · rw [if_neg hx, if_neg hx, ih]

theorem alookup_aerase (k x : String) (l : List (String × String)) :
    alookup x (aerase k l) = if x = k then none else alookup x l := by
  induction l with
  | nil =>
    show alookup x [] = if x = k then none else alookup x []
    by_cases hx : x = k <;> simp [alookup, hx]
  | cons p rest ih =>
    obtain ⟨a, b⟩ := p
    by_cases hak : a = k
    · subst hak
      rw [aerase_cons_self, alookup_cons, ih]
      by_cases hx : x = a
      · subst hx
        simp
      · rw [if_neg hx, if_neg hx, if_neg (Ne.symm hx)]
    · rw [aerase_cons_ne hak, alookup_cons, alookup_cons, ih]
      by_cases hx : a = x
      · subst hx
        rw [if_pos rfl, if_neg hak, if_pos rfl]
      · rw [if_neg hx, if_neg hx]

theorem mem_of_alookup_eq_some {k v : String} {l : List (String × String)}
    (h : alookup k l = some v) : (k, v) ∈ l := by
  induction l with
  | nil => simp [alookup] at h
  | cons p rest ih =>
    obtain ⟨a, b⟩ := p
    by_cases hak : a = k
    · subst hak
      simp [alookup] at h
      simp [h]
    · simp [alookup, hak] at h
      exact List.mem_cons_of_mem _ (ih h)

theorem alookup_eq_some_of_mem_nodup {k v : String} {l : List (String × String)}
    (hnd : (l.map Prod.fst).Nodup) (h : (k, v) ∈ l) : alookup k l = some v := by
  induction l with
  | nil => simp at h
  | cons p rest ih =>
    obtain ⟨a, b⟩ := p
    simp only [List.map_cons, List.nodup_cons] at hnd
    rcases List.mem_cons.1 h with h1 | h1
    · cases h1
      simp [alookup]
    · have hak : a ≠ k := by
        intro he
        subst he
        exact hnd.1 (List.mem_map.2 ⟨(a, v), h1, rfl⟩)
      simp [alookup, hak]
      exact ih hnd.2 h1

theorem mem_keys_ainsert (k v x : String) (l : List (String × String)) :
    x ∈ (ainsert k v l).map Prod.fst ↔ x = k ∨ x ∈ l.map Prod.fst := by
  induction l with
  | nil => simp [ainsert]
  | cons p rest ih =>
    obtain ⟨a, b⟩ := p
    by_cases hak : a = k
    · subst hak
      rw [ainsert_cons_self]
      simp only [List.map_cons, List.mem_cons]
      tauto
    · rw [ainsert_cons_ne hak]
      simp only [List.map_cons, List.mem_cons, ih]
      tauto

theorem nodup_keys_ainsert (k v : String) (l : List (String × String))
    (h : (l.map Prod.fst).Nodup) : ((ainsert k v l).map Prod.fst).Nodup := by
  induction l with
  | nil => simp [ainsert]
  | cons p rest ih =>
    obtain ⟨a, b⟩ := p
    simp only [List.map_cons, List.nodup_cons] at h
    by_cases hak : a = k
    · subst hak
      rw [ainsert_cons_self]
      simp only [List.map_cons, List.nodup_cons]
      exact h
    · rw [ainsert_cons_ne hak]
      simp only [List.map_cons, List.nodup_cons]
      refine ⟨fun hmem => ?_, ih h.2⟩
      rcases (mem_keys_ainsert k v a rest).1 hmem with h1 | h1
      · exact hak h1
      · exact h.1 h1

theorem nodup_keys_aerase (k : String) (l : List (String × String))
    (h : (l.map Prod.fst).Nodup) : ((aerase k l).map Prod.fst).Nodup := by
  have hsub : List.Sublist ((aerase k l).map Prod.fst) (l.map Prod.fst) :=
    List.Sublist.map Prod.fst (List.filter_sublist l)
  exact h.sublist hsub

/-! ## String utilities (JavaScript semantics, ASCII scope)

`jsLower` models `String.prototype.toLowerCase` on the ASCII range (the
markers the heuristic looks for are all ASCII).  `containsSub` models
`String.prototype.includes` and a regular expression consisting only of
literal characters.  `isJsWs` models the ASCII part of the `\s` class. -/

def jsLower (l : List Char) : List Char := l.map Char.toLower

/-- `startsList needle hay`: `hay` starts with `needle`. -/
def startsList : List Char → List Char → Bool
  | [], _ => true
  | _ :: _, [] => false
  | a :: as, b :: bs => a = b && startsList as bs

/-- `containsSub needle hay`: `needle` occurs as a contiguous substring. -/
def containsSub : List Char → List Char → Bool
  | needle, [] => needle.isEmpty
  | needle, h :: rest => startsList needle (h :: rest) || containsSub needle rest

/-- ASCII members of the JavaScript regular-expression class `\s`. -/
def isJsWs (c : Char) : Bool :=
  c = ' ' || c = '\t' || c = '\n' || c = '\r' || c = '\x0b' || c = '\x0c'

/-- Strip an expected literal run of characters, returning the remainder. -/
def stripLit : List Char → List Char → Option (List Char)
  | [], l => some l
  | _ :: _, [] => none
  | a :: as, b :: bs => if a = b then stripLit as bs else none

/-! ## The encrypted-content heuristic (`isSopsEncrypted`) -/

/-- One attempted match of `/"sops":\s*{/` at the head of the list: the
literal `"sops":`, any run of whitespace, then an opening brace. -/
def quotedSopsBraceAt (l : List Char) : Bool :=
  match stripLit "\"sops\":".data l with
  | some r =>
    match r.dropWhile isJsWs with
    | c :: _ => c = '\x7b'
    | [] => false
  | none => false

/-- Unanchored search for `/"sops":\s*{/`, as `RegExp.prototype.test`. -/
def quotedSopsBrace : List Char → Bool
  | [] => false
  | c :: rest => quotedSopsBraceAt (c :: rest) || quotedSopsBrace rest

/-- Model of `isSopsEncrypted` (`sopsHandler.ts`): lower-case the content;
return `false` when `"sops"` is absent; otherwise look for an encrypted
value marker (`enc[` or `/"enc":/`) or a metadata marker (`/sops:\n/` or
`/"sops":\s*{/`).  The early `return false` of the source is the `else`
branch. -/
def isSopsEncrypted (content : String) : Bool :=
  let lower := jsLower content.data
  if containsSub "sops".data lower then
    (containsSub "enc[".data lower || containsSub "\"enc\":".data lower) ||
      (containsSub "sops:\n".data lower || quotedSopsBrace lower)
  else false

/-- Modelled from the spec (for comparison with the code): an occurrence of
`sops:` followed by a newline that sits right after a newline character,
i.e. at the start of a non-initial line. -/
def afterNewlineMarker : List Char → Bool
  | [] => false
  | c :: rest => (c = '\n' && startsList "sops:\n".data rest) || afterNewlineMarker rest

/-- Modelled from the spec (for comparison with the code): a line-start
occurrence of the token `sops:` followed by a newline — either at the very
beginning of the content or right after a newline. -/
def lineStartSopsMarker (l : List Char) : Bool :=
  startsList "sops:\n".data l || afterNewlineMarker l

theorem startsList_of_append {a b l : List Char}
    (h : startsList (a ++ b) l = true) : startsList a l = true := by
  induction a generalizing l with
  | nil => rfl
  | cons c as ih =>
    cases l with
    | nil => simp [startsList] at h
    | cons d ds =>
      simp only [List.cons_append, startsList, Bool.and_eq_true] at h ⊢
      exact ⟨h.1, ih h.2⟩

theorem containsSub_of_append {a b l : List Char}
    (h : containsSub (a ++ b) l = true) : containsSub a l = true := by
  induction l with
  | nil =>
    simp only [containsSub, List.isEmpty_iff, List.append_eq_nil] at h
    simp [containsSub, h.1]
  | cons c rest ih =>
    simp only [containsSub, Bool.or_eq_true] at h ⊢
    rcases h with h | h
    · exact Or.inl (startsList_of_append h)
    · exact Or.inr (ih h)

/-- Claim C3: the heuristic returns false when the lower-cased content has
no occurrence of `sops`; returns true when it contains both `sops` and an
`enc[` marker; and returns true when it contains the token `sops:` followed
by a newline, even without any `enc[` marker. -/
theorem claim_C3 (s : String) :
    (¬ containsSub "sops".data (jsLower s.data) = true → isSopsEncrypted s = false) ∧
    (containsSub "sops".data (jsLower s.data) = true ∧
        containsSub "enc[".data (jsLower s.data) = true → isSopsEncrypted s = true) ∧
    (containsSub "sops:\n".data (jsLower s.data) = true → isSopsEncrypted s = true) := by
  refine ⟨fun h => ?_, fun h => ?_, fun h => ?_⟩
  · simp [isSopsEncrypted, h]
  · simp [isSopsEncrypted, h.1, h.2]
  · have hs : containsSub "sops".data (jsLower s.data) = true := by
      have he : "sops".data ++ ":\n".data = "sops:\n".data := by decide
      exact containsSub_of_append (b := ":\n".data) (by rw [he]; exact h)
    simp [isSopsEncrypted, hs, h]

theorem claim_C3_witness :
    isSopsEncrypted "hello" = false ∧ isSopsEncrypted "sops enc[AES256" = true ∧
      isSopsEncrypted "a: 1\nsops:\n  kms: x" = true :=
  ⟨(claim_C3 "hello").1 (by decide),
   (claim_C3 "sops enc[AES256").2.1 (by decide),
   (claim_C3 "a: 1\nsops:\n  kms: x").2.2 (by decide)⟩

/-- Claim C4, counterexample: the content `"x sops:\n"` satisfies every
hypothesis of the claim (contains `sops`, no encrypted-value marker, no
quoted-format metadata marker) and the heuristic returns true, although the
occurrence of `sops:` followed by a newline is not at the start of a line —
the source regular expression `/sops:\n/` is unanchored, contradicting the
claim that line-start position is required. -/
theorem claim_C4_counterexample :
    containsSub "sops".data (jsLower "x sops:\n".data) = true ∧
    containsSub "enc[".data (jsLower "x sops:\n".data) = false ∧
    containsSub "\"enc\":".data (jsLower "x sops:\n".data) = false ∧
    quotedSopsBrace (jsLower "x sops:\n".data) = false ∧
    isSopsEncrypted "x sops:\n" = true ∧
    lineStartSopsMarker (jsLower "x sops:\n".data) = false := by decide

/-- Claim C4, amended: for content containing `sops` (case-insensitive) but
no encrypted-value marker and no quoted-format metadata marker, the
heuristic returns true exactly when the substring `sops:` followed by a
newline occurs anywhere in the lower-cased content — not necessarily at the
start of a line. -/
theorem claim_C4_amended (s : String)
    (h1 : containsSub "sops".data (jsLower s.data) = true)
    (h2 : containsSub "enc[".data (jsLower s.data) = false)
    (h3 : containsSub "\"enc\":".data (jsLower s.data) = false)
    (h4 : quotedSopsBrace (jsLower s.data) = false) :
    isSopsEncrypted s = containsSub "sops:\n".data (jsLower s.data) := by
  simp [isSopsEncrypted, h1, h2, h3, h4]

theorem claim_C4_amended_witness :
    isSopsEncrypted "x sops:\n" = containsSub "sops:\n".data (jsLower "x sops:\n".data) :=
  claim_C4_amended "x sops:\n" (by decide) (by decide) (by decide) (by decide)

/-! ## `decryptToTempFile` (`sopsHandler.ts`): pure working-path computation

The subprocess call is external; the model takes the decrypted plaintext as
an argument and computes the working path exactly as the source does:
extract the suffix with `/sops_unencrypted_suffix\s*=\s*([^\n\r]+)/`,
default to `_decrypted`, and insert it before the extension. -/

/-- Greedy match of `([^\n\r]+)` at the head: the run of characters up to a
line break, required non-empty. -/
def captureLine (l : List Char) : Option (List Char) :=
  let cap := l.takeWhile (fun c => !(c = '\n' || c = '\r'))
  if cap.isEmpty then none else some cap

/-- Greedy match of `\s*([^\n\r]+)` with backtracking: consume as much
whitespace as possible, fall back to starting the capture earlier when the
remaining capture would be empty (JavaScript regular-expression
semantics — a space can be taken by `\s*` or by the capture). -/
def wsCapture : List Char → Option (List Char)
  | [] => none
  | c :: rest =>
    if isJsWs c then
      match wsCapture rest with
      | some cap => some cap
      | none => captureLine (c :: rest)
    else captureLine (c :: rest)

/-- One attempted match of the whole suffix directive at the head of the
list: the literal key, `\s*`, `=`, then `\s*([^\n\r]+)`.  The first `\s*`
needs no backtracking because `=` is not a whitespace character. -/
def matchDirectiveAt (l : List Char) : Option (List Char) :=
  match stripLit "sops_unencrypted_suffix".data l with
  | none => none
  | some r =>
    match r.dropWhile isJsWs with
    | '=' :: r2 => wsCapture r2
    | _ => none

/-- `String.prototype.match`: the capture of the first position at which
the directive pattern matches, scanning left to right. -/
def firstDirective : List Char → Option (List Char)
  | [] => none
  | c :: rest =>
    match matchDirectiveAt (c :: rest) with
    | some cap => some cap
    | none => firstDirective rest

/-- `String.prototype.trim` (ASCII whitespace scope). -/
def jsTrim (l : List Char) : List Char :=
  ((l.dropWhile isJsWs).reverse.dropWhile isJsWs).reverse

/-- `path.basename`: the part of the path after the last `/`. -/
def afterLastSlash (l : List Char) : List Char :=
  l.foldl (fun acc c => if c = '/' then [] else acc ++ [c]) []

/-- Helper on the reversed file name: split off the extension at the last
dot, provided that dot is not the first character of the name (the
`path.extname` rule).  Returns `(reversed base, reversed extension)`. -/
def extSplit : List Char → Option (List Char × List Char)
  | [] => none
  | c :: rest =>
    if c = '.' then (if rest.isEmpty then none else some (rest, ['.']))
    else (extSplit rest).map (fun p => (p.1, c :: p.2))

/-- `path.extname` and `path.basename(p, ext)` combined: the file name
split into base and extension. -/
def nameSplit (name : List Char) : List Char × List Char :=
  match extSplit name.reverse with
  | some (rb, re) => (rb.reverse, re.reverse)
  | none => (name, [])

/-- `originalPath.substring(0, length - basename.length)`: the directory
part, including the trailing slash when the path has one. -/
def dirPart (l : List Char) : List Char :=
  l.take (l.length - (afterLastSlash l).length)

/-- `path.join` for the shapes arising here: the directory part is either
empty or ends with `/`, and no separator normalisation is needed. -/
def joinPath (d n : List Char) : List Char := if d.isEmpty then n else d ++ n

theorem joinPath_eq_append (d n : List Char) : joinPath d n = d ++ n := by
  cases d <;> simp [joinPath]

/-- Model of `decryptToTempFile` (`sopsHandler.ts`) given the plaintext the
`sops -d` subprocess produced: the returned temporary path.  (The write of
the plaintext to that path is a filesystem effect handled by the session
state machine.) -/
def decryptToTempFile (originalPath decryptedContent : String) : String :=
  let suffix : List Char :=
    match firstDirective decryptedContent.data with
    | some cap => jsTrim cap
    | none => "_decrypted".data
  let name := afterLastSlash originalPath.data
  let bs := nameSplit name
  String.mk (joinPath (dirPart originalPath.data) (bs.1 ++ suffix ++ bs.2))

/-- Claim C5: when the plaintext contains the suffix directive, the trimmed
captured value is used as the suffix, otherwise the default `_decrypted`;
the working path is the original's directory plus its base name with the
suffix inserted before the extension; in particular plaintext
`sops_unencrypted_suffix = _clear` with original `a/b/secret.yaml` gives
`a/b/secret_clear.yaml`. -/
theorem claim_C5 :
    (∀ p c cap, firstDirective c.data = some cap →
        decryptToTempFile p c =
          String.mk (dirPart p.data ++ ((nameSplit (afterLastSlash p.data)).1 ++
            jsTrim cap ++ (nameSplit (afterLastSlash p.data)).2))) ∧
    (∀ p c, firstDirective c.data = none →
        decryptToTempFile p c =
          String.mk (dirPart p.data ++ ((nameSplit (afterLastSlash p.data)).1 ++
            "_decrypted".data ++ (nameSplit (afterLastSlash p.data)).2))) ∧
    decryptToTempFile "a/b/secret.yaml" "sops_unencrypted_suffix = _clear" =
      "a/b/secret_clear.yaml" := by
  refine ⟨fun p c cap h => ?_, fun p c h => ?_, by decide⟩
  · simp [decryptToTempFile, h, joinPath_eq_append]
  · simp [decryptToTempFile, h, joinPath_eq_append]

theorem claim_C5_witness :
    decryptToTempFile "a/b/secret.yaml" "sops_unencrypted_suffix = _clear" =
      String.mk (dirPart "a/b/secret.yaml".data ++
        ((nameSplit (afterLastSlash "a/b/secret.yaml".data)).1 ++
          jsTrim "_clear".data ++ (nameSplit (afterLastSlash "a/b/secret.yaml".data)).2)) :=
  claim_C5.1 "a/b/secret.yaml" "sops_unencrypted_suffix = _clear" "_clear".data (by decide)

/-! ## `encryptAndReplaceOriginal` (`sopsHandler.ts`): backup / restore

The filesystem is an association list from paths to file contents.
`fs.copyFile` fails when the source is absent; `fs.rename` fails when the
source is absent, otherwise it moves the content; `fs.unlink` in the
success path removes the backup.  The in-place `sops --encrypt` subprocess
is external: its outcome enters as `encResult` (`some ciphertext` on
success, `none` on failure). -/

inductive SopsErr where
  | copyFail
  | encFail
  | criticalRestore
deriving DecidableEq

/-- The uniquely-named backup sibling path
(`originalPath + '.sops-backup.' + randomUUID()`). -/
def tempBackupPath (originalPath uuid : String) : String :=
  originalPath ++ ".sops-backup." ++ uuid

theorem tempBackupPath_ne (o u : String) : tempBackupPath o u ≠ o := by
  intro h
  have hl := congrArg String.length h
  have h13 : (".sops-backup." : String).length = 13 := rfl
  rw [tempBackupPath, String.length_append, String.length_append, h13] at hl
  omega

/-- The `catch` block of `encryptAndReplaceOriginal`: attempt
`fs.rename(tempBackupPath, originalPath)`; when the rename fails the
distinct critical error is thrown, otherwise the pending error `e` is
rethrown. -/
def restoreBackup (e : SopsErr) (backupPath originalPath : String)
    (fs : List (String × String)) : Option SopsErr × List (String × String) :=
  match alookup backupPath fs with
  | none => (some SopsErr.criticalRestore, fs)
  | some c => (some e, ainsert originalPath c (aerase backupPath fs))

/-- Model of `encryptAndReplaceOriginal` (`sopsHandler.ts`): copy the
original to the backup path, overwrite the original with the plaintext,
run the external encrypt step, and on success delete the backup; any
failure enters `restoreBackup`.  Returns the error (if any) and the
resulting filesystem. -/
def encryptAndReplaceOriginal (encResult : Option String)
    (content originalPath uuid : String)
    (fs : List (String × String)) : Option SopsErr × List (String × String) :=
  let backupPath := tempBackupPath originalPath uuid
  match alookup originalPath fs with
  | none => restoreBackup SopsErr.copyFail backupPath originalPath fs
  | some origContent =>
    let fs1 := ainsert backupPath origContent fs
    let fs2 := ainsert originalPath content fs1
    match encResult with
    | none => restoreBackup SopsErr.encFail backupPath originalPath fs2
    | some ct => (none, aerase backupPath (ainsert originalPath ct fs2))

/-- Claim C1: when the backup copy succeeds (the original exists), the
in-place encrypt step fails and restoration succeeds, the original file
holds its previous content byte for byte, no backup file remains, and the
propagated error is the original encryption error (not the critical
restoration error). -/
theorem claim_C1 (fs : List (String × String)) (content originalPath uuid c0 : String)
    (h : alookup originalPath fs = some c0) :
    (encryptAndReplaceOriginal none content originalPath uuid fs).1 = some SopsErr.encFail ∧
    alookup originalPath (encryptAndReplaceOriginal none content originalPath uuid fs).2 =
      some c0 ∧
    alookup (tempBackupPath originalPath uuid)
      (encryptAndReplaceOriginal none content originalPath uuid fs).2 = none := by
  have hne : tempBackupPath originalPath uuid ≠ originalPath := tempBackupPath_ne _ _
  have hb : alookup (tempBackupPath originalPath uuid)
      (ainsert originalPath content
        (ainsert (tempBackupPath originalPath uuid) c0 fs)) = some c0 := by
    rw [alookup_ainsert, if_neg hne, alookup_ainsert, if_pos rfl]
  simp only [encryptAndReplaceOriginal, h, restoreBackup, hb]
  refine ⟨by trivial, ?_, ?_⟩
  · rw [alookup_ainsert, if_pos rfl]
  · rw [alookup_ainsert, if_neg hne, alookup_aerase, if_pos rfl]

theorem claim_C1_witness :
    alookup "f.yaml" [("f.yaml", "CIPHER")] = some "CIPHER" ∧
    ((encryptAndReplaceOriginal none "PLAIN" "f.yaml" "u1" [("f.yaml", "CIPHER")]).1 =
        some SopsErr.encFail ∧
      alookup "f.yaml"
        (encryptAndReplaceOriginal none "PLAIN" "f.yaml" "u1" [("f.yaml", "CIPHER")]).2 =
        some "CIPHER" ∧
      alookup (tempBackupPath "f.yaml" "u1")
        (encryptAndReplaceOriginal none "PLAIN" "f.yaml" "u1" [("f.yaml", "CIPHER")]).2 =
        none) :=
  ⟨by decide, claim_C1 [("f.yaml", "CIPHER")] "PLAIN" "f.yaml" "u1" "CIPHER" (by decide)⟩

/-- Claim C8: when the backup copy itself fails (the original is absent, so
no backup was created), the filesystem is left entirely unchanged, yet the
error thrown is the critical backup-restoration error, not the backup-copy
error, because the `catch` block unconditionally attempts to restore from
the nonexistent backup path. -/
theorem claim_C8 (fs : List (String × String)) (encResult : Option String)
    (content originalPath uuid : String)
    (h1 : alookup originalPath fs = none)
    (h2 : alookup (tempBackupPath originalPath uuid) fs = none) :
    (encryptAndReplaceOriginal encResult content originalPath uuid fs).1 =
      some SopsErr.criticalRestore ∧
    (encryptAndReplaceOriginal encResult content originalPath uuid fs).2 = fs ∧
    (encryptAndReplaceOriginal encResult content originalPath uuid fs).1 ≠
      some SopsErr.copyFail := by
  simp only [encryptAndReplaceOriginal, h1, restoreBackup, h2]
  exact ⟨by trivial, by trivial, by simp⟩

theorem claim_C8_witness :
    alookup "g.yaml" ([] : List (String × String)) = none ∧
    alookup (tempBackupPath "g.yaml" "u2") ([] : List (String × String)) = none ∧
    ((encryptAndReplaceOriginal none "P" "g.yaml" "u2" []).1 =
        some SopsErr.criticalRestore ∧
      (encryptAndReplaceOriginal none "P" "g.yaml" "u2" []).2 = [] ∧
      (encryptAndReplaceOriginal none "P" "g.yaml" "u2" []).1 ≠ some SopsErr.copyFail) :=
  ⟨by decide, by decide, claim_C8 [] none "P" "g.yaml" "u2" (by decide) (by decide)⟩

/-! ## `getApplicableCreationRules` (`sopsHandler.ts`)

The configuration has already been read and parsed (that part is external
I/O); the model starts from the ordered list of creation rules.  A rule is
its optional `path_regex` plus the open-ended mapping of remaining keys.

`new RegExp(...)` / `.test(...)` are modelled by a small engine whose
compiler classifies every pattern three ways:
* `ok items` — the pattern uses only constructs whose JavaScript semantics
  the matcher reproduces exactly: plain literal characters, identity
  escapes of non-alphanumeric characters (such as `\.`), `.`, a postfix
  `*` on a literal or on `.`, `^` and `$` (non-multiline), searched
  unanchored;
* `bad` — the pattern certainly makes the `RegExp` constructor throw a
  `SyntaxError`: a quantifier with nothing to repeat at the very start, or
  a trailing backslash;
* `unsupported` — everything else (character classes, groups,
  alternation, the other quantifiers, class escapes such as `\d`): such a
  pattern may be valid JavaScript, but its matching behaviour is outside
  this model, so no theorem below says anything about it. -/

inductive RItem where
  | lit (c : Char)
  | dot
  | star (i : RItem)
  | bol
  | eol
deriving DecidableEq

/-- The three-way classification of a pattern by the model of the
`RegExp` constructor. -/
inductive RegexOutcome where
  | ok (items : List RItem)
  | bad
  | unsupported
deriving DecidableEq

def RegexOutcome.isOk : RegexOutcome → Bool
  | .ok _ => true
  | _ => false

/-- Compile a pattern: `ok` for the exactly-modelled fragment, `bad` for
patterns on which the `RegExp` constructor certainly throws, and
`unsupported` for every construct whose JavaScript behaviour the model
does not reproduce.  An escaped alphanumeric character is `unsupported`
(it may be a class escape such as `\d`, a control escape or a
backreference); an escaped non-alphanumeric character is an identity
escape. -/
def compileJs : List Char → List RItem → RegexOutcome
  | [], acc => .ok acc.reverse
  | '\\' :: [], _ => .bad
  | '\\' :: c :: rest, acc =>
    if c.isAlphanum then .unsupported
    else compileJs rest (.lit c :: acc)
  | '.' :: rest, acc => compileJs rest (.dot :: acc)
  | '$' :: rest, acc => compileJs rest (.eol :: acc)
  | '^' :: rest, acc => compileJs rest (.bol :: acc)
  | '*' :: rest, acc =>
    match acc with
    | [] => .bad
    | .lit c :: acc2 => compileJs rest (.star (.lit c) :: acc2)
    | .dot :: acc2 => compileJs rest (.star .dot :: acc2)
    | _ => .unsupported
  | c :: rest, acc =>
    if c = '(' || c = ')' || c = '[' || c = ']' || c = '\x7b' || c = '\x7d' ||
        c = '+' || c = '?' || c = '|' then
      .unsupported
    else compileJs rest (.lit c :: acc)

/-- Whether a single-character item matches a character (`.` excludes the
four JavaScript line terminators). -/
def matchOne : RItem → Char → Bool
  | .lit c, x => c = x
  | .dot, x => !(x = '\n' || x = '\r' || x = '\u2028' || x = '\u2029')
  | _, _ => false

/-- Backtracking matcher at a fixed position, on explicit fuel so that it
is structurally recursive and kernel-evaluable.  Every recursive call
decreases `items.length + s.length`, so fuel `items.length + s.length + 1`
computes the exact (fuel-free) semantics.  The third argument records
whether the position is the absolute start of the subject (for `^`). -/
def rmatchFuel : Nat → List RItem → List Char → Bool → Bool
  | 0, _, _, _ => false
  | _ + 1, [], _, _ => true
  | f + 1, .eol :: rest, [], st => rmatchFuel f rest [] st
  | _ + 1, .eol :: _, _ :: _, _ => false
  | f + 1, .bol :: rest, s, st => st && rmatchFuel f rest s st
  | f + 1, .lit c :: rest, x :: xs, _ => matchOne (.lit c) x && rmatchFuel f rest xs false
  | _ + 1, .lit _ :: _, [], _ => false
  | f + 1, .dot :: rest, x :: xs, _ => matchOne .dot x && rmatchFuel f rest xs false
  | _ + 1, .dot :: _, [], _ => false
  | f + 1, .star _ :: rest, [], st => rmatchFuel f rest [] st
  | f + 1, .star i :: rest, x :: xs, st =>
    rmatchFuel f rest (x :: xs) st || (matchOne i x && rmatchFuel f (.star i :: rest) xs false)

/-- Match the items at the head of `s` with sufficient fuel. -/
def rmatchHere (items : List RItem) (s : List Char) (st : Bool) : Bool :=
  rmatchFuel (items.length + s.length + 1) items s st

/-- Unanchored search (`RegExp.prototype.test`): try every start
position. -/
def rsearch (items : List RItem) : List Char → Bool → Bool
  | [], st => rmatchHere items [] st
  | x :: xs, st => rmatchHere items (x :: xs) st || rsearch items xs false

/-- A creation rule: the optional `path_regex` and the open-ended mapping
of the remaining keys. -/
structure CreationRule where
  path_regex : Option String
  keys : List (String × String)
deriving DecidableEq

/-- The outcome of running the loop of `getApplicableCreationRules`:
`ok` when every encountered pattern was inside the exactly-modelled
fragment, `thrown` when a pattern certainly made the `RegExp` constructor
throw, and `unknown` when the loop ran through a pattern whose matching
behaviour the model does not cover (a valid pattern never aborts the
loop in the source — only its membership in the result is unknown — so a
later construction throw still yields `thrown`). -/
inductive RulesOutcome where
  | ok (acc : List CreationRule)
  | thrown
  | unknown
deriving DecidableEq

/-- The loop body of `getApplicableCreationRules`: push every rule without
`path_regex` or whose pattern matches; a pattern on which the constructor
throws aborts the whole loop. -/
def rulesLoop : List CreationRule → String → List CreationRule → RulesOutcome
  | [], _, acc => .ok acc
  | r :: rs, path, acc =>
    match r.path_regex with
    | none => rulesLoop rs path (acc ++ [r])
    | some pat =>
      match compileJs pat.data [] with
      | .bad => .thrown
      | .ok items =>
        if rsearch items path.data true then rulesLoop rs path (acc ++ [r])
        else rulesLoop rs path acc
      | .unsupported =>
        match rulesLoop rs path acc with
        | .thrown => .thrown
        | _ => .unknown

/-- Model of `getApplicableCreationRules` (`sopsHandler.ts`) from the
parsed rule list on: the surrounding `try`/`catch` turns a thrown
construction error into the empty result; `none` marks the case outside
the modelled regular-expression fragment, about which no theorem below
speaks. -/
def getApplicableCreationRules (rules : List CreationRule) (path : String) :
    Option (List CreationRule) :=
  match rulesLoop rules path [] with
  | .ok l => some l
  | .thrown => some []
  | .unknown => none

/-- The per-rule applicability predicate: no pattern, or the compiled
pattern matches the path under unanchored search. -/
def ruleApplies (path : String) (r : CreationRule) : Bool :=
  match r.path_regex with
  | none => true
  | some pat =>
    match compileJs pat.data [] with
    | .ok items => rsearch items path.data true
    | _ => false

/-- Every `path_regex` present in the list compiles to the
exactly-modelled fragment. -/
def AllPatternsValid (rules : List CreationRule) : Prop :=
  ∀ r ∈ rules, ∀ pat, r.path_regex = some pat → (compileJs pat.data []).isOk = true

theorem rulesLoop_eq_filter (path : String) :
    ∀ (rs : List CreationRule) (acc : List CreationRule), AllPatternsValid rs →
      rulesLoop rs path acc = .ok (acc ++ rs.filter (ruleApplies path)) := by
  intro rs
  induction rs with
  | nil => intro acc h; simp [rulesLoop]
  | cons r rs ih =>
    intro acc h
    have hrs : AllPatternsValid rs :=
      fun r2 hm pat hp => h r2 (List.mem_cons_of_mem _ hm) pat hp
    cases hpr : r.path_regex with
    | none =>
      rw [show rulesLoop (r :: rs) path acc = rulesLoop rs path (acc ++ [r]) from by
        simp [rulesLoop, hpr]]
      rw [ih _ hrs]
      have hra : ruleApplies path r = true := by simp [ruleApplies, hpr]
      simp [List.filter_cons, hra, List.append_assoc]
    | some pat =>
      have hv := h r (List.mem_cons_self r rs) pat hpr
      cases heq : compileJs pat.data [] with
      | bad => rw [heq] at hv; cases hv
      | unsupported => rw [heq] at hv; cases hv
      | ok items =>
        by_cases ht : rsearch items path.data true = true
        · rw [show rulesLoop (r :: rs) path acc = rulesLoop rs path (acc ++ [r]) from by
            simp [rulesLoop, hpr, heq, ht]]
          rw [ih _ hrs]
          have hra : ruleApplies path r = true := by simp [ruleApplies, hpr, heq, ht]
          simp [List.filter_cons, hra, List.append_assoc]
        · rw [show rulesLoop (r :: rs) path acc = rulesLoop rs path acc from by
            simp [rulesLoop, hpr, heq, ht]]
          rw [ih _ hrs]
          have hra : ruleApplies path r = false := by
            simp [ruleApplies, hpr, heq]
            exact Bool.not_eq_true _ ▸ (Bool.eq_false_iff.mpr ht)
          simp [List.filter_cons, hra]

theorem rulesLoop_thrown (path : String) :
    ∀ (rs : List CreationRule) (acc : List CreationRule),
      (∃ r ∈ rs, ∃ pat, r.path_regex = some pat ∧
        compileJs pat.data [] = RegexOutcome.bad) →
      rulesLoop rs path acc = .thrown := by
  intro rs
  induction rs with
  | nil =>
    intro acc h
    obtain ⟨r, hm, _⟩ := h
    simp at hm
  | cons r rs ih =>
    intro acc h
    obtain ⟨r2, hm, pat, hp, hc⟩ := h
    rcases List.mem_cons.1 hm with he | hm2
    · subst he
      simp [rulesLoop, hp, hc]
    · cases hpr : r.path_regex with
      | none =>
        rw [show rulesLoop (r :: rs) path acc = rulesLoop rs path (acc ++ [r]) from by
          simp [rulesLoop, hpr]]
        exact ih _ ⟨r2, hm2, pat, hp, hc⟩
      | some pat1 =>
        cases hc1 : compileJs pat1.data [] with
        | bad => simp [rulesLoop, hpr, hc1]
        | ok items =>
          by_cases ht : rsearch items path.data true = true
          · rw [show rulesLoop (r :: rs) path acc = rulesLoop rs path (acc ++ [r]) from by
              simp [rulesLoop, hpr, hc1, ht]]
            exact ih _ ⟨r2, hm2, pat, hp, hc⟩
          · rw [show rulesLoop (r :: rs) path acc = rulesLoop rs path acc from by
              simp [rulesLoop, hpr, hc1, ht]]
            exact ih _ ⟨r2, hm2, pat, hp, hc⟩
        | unsupported =>
          rw [show rulesLoop (r :: rs) path acc =
              (match rulesLoop rs path acc with
               | .thrown => RulesOutcome.thrown
               | _ => RulesOutcome.unknown) from by
            simp [rulesLoop, hpr, hc1]]
          rw [ih _ ⟨r2, hm2, pat, hp, hc⟩]

/-- Claim C6: for a successfully parsed rule list whose patterns all lie
in the exactly-modelled valid fragment, `getApplicableCreationRules`
returns exactly the rules whose `path_regex` is absent or matches the
path under unanchored search, in the original order; and the pattern
`.*\.yaml$` matches `foo.yaml` but not `foo.json`. -/
theorem claim_C6 :
    (∀ rules path, AllPatternsValid rules →
        getApplicableCreationRules rules path = some (rules.filter (ruleApplies path))) ∧
    ruleApplies "foo.yaml" (CreationRule.mk (some ".*\\.yaml$") []) = true ∧
    ruleApplies "foo.json" (CreationRule.mk (some ".*\\.yaml$") []) = false := by
  refine ⟨fun rules path h => ?_, by decide, by decide⟩
  rw [getApplicableCreationRules, rulesLoop_eq_filter path rules [] h]
  simp

/-- Example rule list for the C6 witness: a fallback rule followed by a
pattern rule. -/
def exC6Rules : List CreationRule :=
  [CreationRule.mk none [("pgp", "KEY1")],
   CreationRule.mk (some ".*\\.yaml$") [("age", "KEY2")]]

theorem claim_C6_witness :
    AllPatternsValid exC6Rules ∧
    getApplicableCreationRules exC6Rules "foo.yaml" =
      some (exC6Rules.filter (ruleApplies "foo.yaml")) ∧
    getApplicableCreationRules exC6Rules "foo.json" =
      some (exC6Rules.filter (ruleApplies "foo.json")) := by
  have h : AllPatternsValid exC6Rules := by
    intro r hm pat hp
    rcases List.mem_cons.1 hm with he | hm1
    · subst he
      cases hp
    · rcases List.mem_cons.1 hm1 with he | hm2
      · subst he
        cases hp
        decide
      · simp at hm2
  exact ⟨h, claim_C6.1 exC6Rules "foo.yaml" h, claim_C6.1 exC6Rules "foo.json" h⟩

/-- Claim C9: one `path_regex` on which the `RegExp` constructor throws,
anywhere in the rule list, makes `getApplicableCreationRules` return the
empty list for every candidate path — the construction error is caught by
the surrounding handler, which discards even rules that had already
matched.  (Valid patterns never abort the loop, so the conclusion holds
whatever the other rules' patterns are.) -/
theorem claim_C9 (rules : List CreationRule) (path : String)
    (h : ∃ r ∈ rules, ∃ pat, r.path_regex = some pat ∧
      compileJs pat.data [] = RegexOutcome.bad) :
    getApplicableCreationRules rules path = some [] := by
  rw [getApplicableCreationRules, rulesLoop_thrown path rules [] h]

/-- Example rule list for the C9 witness: a valid matching rule followed
by a pattern on which the constructor throws (`*`, nothing to repeat) and
a fallback rule. -/
def exC9Rules : List CreationRule :=
  [CreationRule.mk (some ".*\\.yaml$") [("age", "K")],
   CreationRule.mk (some "*") [],
   CreationRule.mk none []]

theorem claim_C9_witness :
    (∃ r ∈ exC9Rules, ∃ pat, r.path_regex = some pat ∧
      compileJs pat.data [] = RegexOutcome.bad) ∧
    getApplicableCreationRules exC9Rules "foo.yaml" = some [] := by
  have h : ∃ r ∈ exC9Rules, ∃ pat, r.path_regex = some pat ∧
      compileJs pat.data [] = RegexOutcome.bad := by
    refine ⟨CreationRule.mk (some "*") [], by simp [exC9Rules], "*", rfl, by decide⟩
  exact ⟨h, claim_C9 exC9Rules "foo.yaml" h⟩

/-! ## The session state machine (`SopsContext.ts`)

The state holds the two mirrored maps, the filesystem restricted to what
the handlers touch, the list of visible editor paths, the currently
focused path and the re-entrancy guard.  Each event handler becomes a
function on this state; external outcomes (decrypted plaintext from the
`sops` subprocess, the re-encryption result) are event parameters.
Editor-UI side effects are reflected in `visibleEditors`. -/

structure SessionState where
  originalToTempMap : List (String × String)
  tempToOriginalMap : List (String × String)
  files : List (String × String)
  visibleEditors : List String
  activePath : Option String
  isCleaningUp : Bool
deriving DecidableEq

/-- Observable actions of the open handler, used to state that the
guarded early return performs none of them. -/
inductive OpenEffect where
  | heuristicCheck
  | decryptAttempt
  | pairRegistered
  | editorOpened
  | errorShown
deriving DecidableEq

def addVisible (p : String) (l : List String) : List String :=
  if l.contains p then l else l ++ [p]

/-- Model of `onDidOpenTextDocument` (`SopsContext.ts`): the guard on
`isCleaningUp`, the scheme test, the already-tracked / already-closed
test, the heuristic, then decrypt-to-temp with registration of the pair
in both maps, the plaintext write, and the editor opening; a decryption
failure (`decryptResult = none`) shows an error and registers nothing. -/
def onDidOpenTextDocument (st : SessionState) (path scheme : String)
    (isDocClosed : Bool) (text : String) (decryptResult : Option String) :
    SessionState × List OpenEffect :=
  if st.isCleaningUp then (st, [])
  else if scheme ≠ "file" then (st, [])
  else if (alookup path st.originalToTempMap).isSome ||
      (alookup path st.tempToOriginalMap).isSome || isDocClosed then (st, [])
  else if isSopsEncrypted text then
    match decryptResult with
    | none => (st, [.heuristicCheck, .decryptAttempt, .errorShown])
    | some plain =>
      ({ st with
          tempToOriginalMap :=
            ainsert (decryptToTempFile path plain) path st.tempToOriginalMap,
          originalToTempMap :=
            ainsert path (decryptToTempFile path plain) st.originalToTempMap,
          files := ainsert (decryptToTempFile path plain) plain st.files,
          visibleEditors := addVisible (decryptToTempFile path plain) st.visibleEditors },
        [.heuristicCheck, .decryptAttempt, .pairRegistered, .editorOpened])
  else (st, [.heuristicCheck])

/-- The cascaded close of a working file's editor: closing it fires the
close event for the working document, which removes the pair from both
maps and deletes the working file (the "this will trigger the case above"
comment in the source). -/
def closeTempCascade (st : SessionState) (t : String) : SessionState :=
  match alookup t st.tempToOriginalMap with
  | some o2 =>
    { st with
        files := aerase t st.files,
        tempToOriginalMap := aerase t st.tempToOriginalMap,
        originalToTempMap := aerase o2 st.originalToTempMap,
        visibleEditors := st.visibleEditors.filter (fun e => e != t) }
  | none => { st with visibleEditors := st.visibleEditors.filter (fun e => e != t) }

/-- Model of `onDidCloseTextDocument` (`SopsContext.ts`): a closed working
path removes the pair and deletes the working file; a closed original path
closes the visible working editor (cascading into the previous case) and
otherwise leaves the pair registered. -/
def onDidCloseTextDocument (st : SessionState) (path : String) : SessionState :=
  match alookup path st.tempToOriginalMap with
  | some originalPath =>
    { st with
        files := aerase path st.files,
        tempToOriginalMap := aerase path st.tempToOriginalMap,
        originalToTempMap := aerase originalPath st.originalToTempMap,
        visibleEditors := st.visibleEditors.filter (fun e => e != path) }
  | none =>
    match alookup path st.originalToTempMap with
    | some tempPath =>
      if (st.visibleEditors.filter (fun e => e != path)).contains tempPath then
        closeTempCascade
          { st with visibleEditors := st.visibleEditors.filter (fun e => e != path) }
          tempPath
      else { st with visibleEditors := st.visibleEditors.filter (fun e => e != path) }
    | none => { st with visibleEditors := st.visibleEditors.filter (fun e => e != path) }

/-- Model of `onDidSaveTextDocument` (`SopsContext.ts`): saving a
registered working path re-encrypts the original through
`encryptAndReplaceOriginal`; the maps are untouched on success and
failure alike. -/
def onDidSaveTextDocument (st : SessionState) (path text uuid : String)
    (encResult : Option String) : SessionState :=
  match alookup path st.tempToOriginalMap with
  | some originalPath =>
    { st with files := (encryptAndReplaceOriginal encResult text originalPath uuid st.files).2 }
  | none => st

/-- Model of `onDidChangeActiveTextEditor` up to the timer: record the new
focus (status-bar update is presentation only); the armed timer is the
separate `timerFired` event. -/
def onDidChangeActiveTextEditor (st : SessionState) (active : Option String) :
    SessionState :=
  { st with activePath := active }

/-- One iteration of the cleanup loop over the snapshot: close the visible
working editor (cascading into the close handler) or delete the working
file and both map entries directly. -/
def cleanupPairStep (st : SessionState) (t o : String) : SessionState :=
  if st.visibleEditors.contains t then closeTempCascade st t
  else
    { st with
        files := aerase t st.files,
        tempToOriginalMap := aerase t st.tempToOriginalMap,
        originalToTempMap := aerase o st.originalToTempMap }

def cleanupLoop : SessionState → List (String × String) → SessionState
  | st, [] => st
  | st, (t, o) :: rest => cleanupLoop (cleanupPairStep st t o) rest

/-- The `contextsToClean` snapshot: every tracked pair in which neither
the working path nor the original path equals the focused path. -/
def cleanupSnapshot (st : SessionState) : List (String × String) :=
  st.tempToOriginalMap.filter
    (fun p => !(st.activePath == some p.1 || st.activePath == some p.2))

/-- Model of the debounced cleanup callback of
`onDidChangeActiveTextEditor` firing: guarded by `isCleaningUp`, it
snapshots the pairs whose working and original paths both differ from the
focused path and tears each of them down; the guard is reset in the
`finally` block. -/
def runCleanupTimer (st : SessionState) : SessionState :=
  if st.isCleaningUp then st
  else
    { cleanupLoop { st with isCleaningUp := true } (cleanupSnapshot st) with
      isCleaningUp := false }

inductive SopsEvent where
  | openDoc (path scheme : String) (isDocClosed : Bool) (text : String)
      (decryptResult : Option String)
  | saveDoc (path text uuid : String) (encResult : Option String)
  | closeDoc (path : String)
  | focusChange (active : Option String)
  | timerFired
deriving DecidableEq

/-- The event-handler transition function of the session state machine. -/
def step (e : SopsEvent) (st : SessionState) : SessionState :=
  match e with
  | .openDoc path scheme closed text dec =>
    (onDidOpenTextDocument st path scheme closed text dec).1
  | .saveDoc path text uuid enc => onDidSaveTextDocument st path text uuid enc
  | .closeDoc path => onDidCloseTextDocument st path
  | .focusChange a => onDidChangeActiveTextEditor st a
  | .timerFired => runCleanupTimer st

def initialState : SessionState := ⟨[], [], [], [], none, false⟩

inductive Reachable : SessionState → Prop
  | init : Reachable initialState
  | next (e : SopsEvent) {s : SessionState} : Reachable s → Reachable (step e s)

/-- The two maps are mutual inverses: `o ↦ w` on one side exactly when
`w ↦ o` on the other. -/
def InvMaps (ot tm : List (String × String)) : Prop :=
  ∀ o w, alookup o ot = some w ↔ alookup w tm = some o

def MapsInverse (st : SessionState) : Prop :=
  InvMaps st.originalToTempMap st.tempToOriginalMap

/-- Well-formedness of the session maps: unique keys on both sides and
mutual inverseness. -/
def WellFormed (st : SessionState) : Prop :=
  (st.tempToOriginalMap.map Prod.fst).Nodup ∧
  (st.originalToTempMap.map Prod.fst).Nodup ∧ MapsInverse st

theorem InvMaps_insert {ot tm : List (String × String)} {o t : String}
    (hinv : InvMaps ot tm) (ho : alookup o ot = none) (ht : alookup t tm = none) :
    InvMaps (ainsert o t ot) (ainsert t o tm) := by
  intro x y
  rw [alookup_ainsert, alookup_ainsert]
  by_cases hx : x = o
  · subst hx
    by_cases hy : y = t
    · subst hy
      simp
    · rw [if_pos rfl, if_neg hy]
      constructor
      · intro he
        cases he
        exact absurd rfl hy
      · intro he
        have := (hinv x y).mpr he
        rw [ho] at this
        cases this
  · by_cases hy : y = t
    · subst hy
      rw [if_neg hx, if_pos rfl]
      constructor
      · intro he
        have := (hinv x y).mp he
        rw [ht] at this
        cases this
      · intro he
        cases he
        exact absurd rfl hx
    · rw [if_neg hx, if_neg hy]
      exact hinv x y

theorem InvMaps_erase {ot tm : List (String × String)} {t o : String}
    (hinv : InvMaps ot tm) (ht : alookup t tm = some o) :
    InvMaps (aerase o ot) (aerase t tm) := by
  have hot : alookup o ot = some t := (hinv o t).mpr ht
  intro x y
  rw [alookup_aerase, alookup_aerase]
  by_cases hx : x = o
  · subst hx
    rw [if_pos rfl]
    by_cases hy : y = t
    · subst hy
      rw [if_pos rfl]
      simp
    · rw [if_neg hy]
      constructor
      · intro he
        cases he
      · intro he
        have h2 := (hinv x y).mpr he
        rw [hot] at h2
        cases h2
        exact absurd rfl hy
  · by_cases hy : y = t
    · subst hy
      rw [if_neg hx, if_pos rfl]
      constructor
      · intro he
        have h2 := (hinv x y).mp he
        rw [ht] at h2
        cases h2
        exact absurd rfl hx
      · intro he
        cases he
    · rw [if_neg hx, if_neg hy]
      exact hinv x y

/-- Claim C10: an open event handled while cleanup is in progress returns
immediately: no heuristic test, no decryption attempt, no registration, no
editor opening (the empty effect list), and the state — maps, filesystem,
editors — is returned unchanged. -/
theorem claim_C10 (st : SessionState) (path scheme : String) (isDocClosed : Bool)
    (text : String) (decryptResult : Option String) (h : st.isCleaningUp = true) :
    onDidOpenTextDocument st path scheme isDocClosed text decryptResult = (st, []) := by
  simp [onDidOpenTextDocument, h]

/-- Example state for the C10 witness: one tracked pair, cleanup guard
set. -/
def exC10State : SessionState :=
  ⟨[("a/o.yaml", "a/o_decrypted.yaml")], [("a/o_decrypted.yaml", "a/o.yaml")],
   [("a/o_decrypted.yaml", "P")], ["a/o_decrypted.yaml"],
   some "a/o_decrypted.yaml", true⟩

theorem claim_C10_witness :
    exC10State.isCleaningUp = true ∧
    onDidOpenTextDocument exC10State "n.yaml" "file" false "sops:\n" (some "PL") =
      (exC10State, []) :=
  ⟨rfl, claim_C10 exC10State "n.yaml" "file" false "sops:\n" (some "PL") rfl⟩

/-! ## Claim C2: the mutual-inverse invariant

The invariant fails on the code as stated: two distinct originals can
produce the same working path (the suffix comes from the decrypted
plaintext), and `Map.set` on the second registration overwrites the
working-path entry while the first original's entry stays behind. -/

/-- Opening `d/a_.yaml` whose plaintext selects suffix `b` produces the
working path `d/a_b.yaml`. -/
def c2Open1 : SopsEvent :=
  .openDoc "d/a_.yaml" "file" false "sops:\n" (some "sops_unencrypted_suffix = b")

/-- Opening `d/a.yaml` whose plaintext selects suffix `_b` produces the
same working path `d/a_b.yaml`. -/
def c2Open2 : SopsEvent :=
  .openDoc "d/a.yaml" "file" false "sops:\n" (some "sops_unencrypted_suffix = _b")

/-- Claim C2, counterexample: it is not the case that every reachable
state has mutually inverse maps.  After opening `d/a_.yaml` (suffix `b`)
and then `d/a.yaml` (suffix `_b`), both originals map to `d/a_b.yaml` in
`originalToTempMap` while `tempToOriginalMap` maps it back to `d/a.yaml`
only — `d/a_.yaml` is left as a dangling half-registration. -/
theorem claim_C2_counterexample : ¬ (∀ s, Reachable s → MapsInverse s) := by
  intro h
  have hr : Reachable (step c2Open2 (step c2Open1 initialState)) :=
    Reachable.next c2Open2 (Reachable.next c2Open1 Reachable.init)
  have h3 := ((h _ hr) "d/a_.yaml" "d/a_b.yaml").mp (by decide)
  have h4 : alookup "d/a_b.yaml"
      (step c2Open2 (step c2Open1 initialState)).tempToOriginalMap = some "d/a.yaml" := by
    decide
  rw [h3] at h4
  exact absurd h4 (by decide)

/-! ### Machinery for the cleanup loop and the amended invariant -/

def eraseKeys (ks : List String) (m : List (String × String)) : List (String × String) :=
  ks.foldl (fun m2 k => aerase k m2) m

theorem eraseKeys_cons (k : String) (ks : List String) (m : List (String × String)) :
    eraseKeys (k :: ks) m = eraseKeys ks (aerase k m) := rfl

theorem alookup_eraseKeys (ks : List String) (x : String) (m : List (String × String)) :
    alookup x (eraseKeys ks m) = if x ∈ ks then none else alookup x m := by
  induction ks generalizing m with
  | nil => simp [eraseKeys]
  | cons k ks ih =>
    rw [eraseKeys_cons, ih, alookup_aerase]
    by_cases hk : x = k
    · subst hk
      by_cases hm : x ∈ ks <;> simp [hm]
    · by_cases hm : x ∈ ks <;> simp [hm, hk]

theorem nodup_keys_eraseKeys (ks : List String) (m : List (String × String))
    (h : (m.map Prod.fst).Nodup) : ((eraseKeys ks m).map Prod.fst).Nodup := by
  induction ks generalizing m with
  | nil => exact h
  | cons k ks ih => exact ih _ (nodup_keys_aerase k m h)

theorem cleanupPairStep_spec (st : SessionState) (t o : String)
    (h : alookup t st.tempToOriginalMap = some o) :
    (cleanupPairStep st t o).tempToOriginalMap = aerase t st.tempToOriginalMap ∧
    (cleanupPairStep st t o).originalToTempMap = aerase o st.originalToTempMap ∧
    (cleanupPairStep st t o).files = aerase t st.files ∧
    (cleanupPairStep st t o).activePath = st.activePath ∧
    (cleanupPairStep st t o).isCleaningUp = st.isCleaningUp := by
  unfold cleanupPairStep closeTempCascade
  by_cases hv : st.visibleEditors.contains t = true
  · rw [if_pos hv, h]
    exact ⟨rfl, rfl, rfl, rfl, rfl⟩
  · rw [if_neg hv]
    exact ⟨rfl, rfl, rfl, rfl, rfl⟩

theorem cleanupLoop_spec :
    ∀ (l : List (String × String)) (st : SessionState),
      (st.tempToOriginalMap.map Prod.fst).Nodup →
      (st.originalToTempMap.map Prod.fst).Nodup →
      InvMaps st.originalToTempMap st.tempToOriginalMap →
      (∀ p ∈ l, alookup p.1 st.tempToOriginalMap = some p.2) →
      (l.map Prod.fst).Nodup →
      (cleanupLoop st l).tempToOriginalMap =
          eraseKeys (l.map Prod.fst) st.tempToOriginalMap ∧
      (cleanupLoop st l).originalToTempMap =
          eraseKeys (l.map Prod.snd) st.originalToTempMap ∧
      (cleanupLoop st l).files = eraseKeys (l.map Prod.fst) st.files ∧
      ((cleanupLoop st l).tempToOriginalMap.map Prod.fst).Nodup ∧
      ((cleanupLoop st l).originalToTempMap.map Prod.fst).Nodup ∧
      InvMaps (cleanupLoop st l).originalToTempMap (cleanupLoop st l).tempToOriginalMap := by
  intro l
  induction l with
  | nil =>
    intro st h1 h2 h3 h4 h5
    exact ⟨rfl, rfl, rfl, h1, h2, h3⟩
  | cons p rest ih =>
    intro st h1 h2 h3 h4 h5
    obtain ⟨t, o⟩ := p
    have hto : alookup t st.tempToOriginalMap = some o := h4 (t, o) (List.mem_cons_self _ _)
    obtain ⟨e1, e2, e3, e4, e5⟩ := cleanupPairStep_spec st t o hto
    simp only [List.map_cons, List.nodup_cons] at h5
    have c1 : ((cleanupPairStep st t o).tempToOriginalMap.map Prod.fst).Nodup := by
      rw [e1]
      exact nodup_keys_aerase _ _ h1
    have c2 : ((cleanupPairStep st t o).originalToTempMap.map Prod.fst).Nodup := by
      rw [e2]
      exact nodup_keys_aerase _ _ h2
    have c3 : InvMaps (cleanupPairStep st t o).originalToTempMap
        (cleanupPairStep st t o).tempToOriginalMap := by
      rw [e1, e2]
      exact InvMaps_erase h3 hto
    have c4 : ∀ q ∈ rest, alookup q.1 (cleanupPairStep st t o).tempToOriginalMap = some q.2 := by
      intro q hq
      rw [e1, alookup_aerase]
      have hqt : q.1 ≠ t := by
        intro he
        exact h5.1 (he ▸ List.mem_map.2 ⟨q, hq, rfl⟩)
      rw [if_neg hqt]
      exact h4 q (List.mem_cons_of_mem _ hq)
    obtain ⟨r1, r2, r3, r4, r5, r6⟩ := ih (cleanupPairStep st t o) c1 c2 c3 c4 h5.2
    refine ⟨?_, ?_, ?_, r4, r5, r6⟩
    · show (cleanupLoop (cleanupPairStep st t o) rest).tempToOriginalMap = _
      rw [r1, e1, List.map_cons, eraseKeys_cons]
    · show (cleanupLoop (cleanupPairStep st t o) rest).originalToTempMap = _
      rw [r2, e2, List.map_cons, eraseKeys_cons]
    · show (cleanupLoop (cleanupPairStep st t o) rest).files = _
      rw [r3, e3, List.map_cons, eraseKeys_cons]

/-- The freshness side condition the source implicitly relies on: a
registered decrypt result is not already someone else's working path. -/
def FreshDecrypt (e : SopsEvent) (st : SessionState) : Prop :=
  ∀ path scheme closed text plain,
    e = SopsEvent.openDoc path scheme closed text (some plain) →
    alookup (decryptToTempFile path plain) st.tempToOriginalMap = none

/-- Claim C2, amended: every event-handler transition preserves
well-formedness (unique keys and mutual inverseness) of the two lookup
mappings, provided an open that registers a pair computes a working path
that is not already a registered working path; without that freshness
condition the open handler overwrites the working-path entry and leaves
the superseded original dangling (see the counterexample). -/
theorem claim_C2_amended (st : SessionState) (e : SopsEvent)
    (hwf : WellFormed st) (hf : FreshDecrypt e st) : WellFormed (step e st) := by
  obtain ⟨hnd1, hnd2, hinv⟩ := hwf
  cases e with
  | openDoc path scheme closed text dec =>
    show WellFormed (onDidOpenTextDocument st path scheme closed text dec).1
    unfold onDidOpenTextDocument
    by_cases h1 : st.isCleaningUp = true
    · rw [if_pos h1]
      exact ⟨hnd1, hnd2, hinv⟩
    · rw [if_neg h1]
      by_cases h2 : scheme ≠ "file"
      · rw [if_pos h2]
        exact ⟨hnd1, hnd2, hinv⟩
      · rw [if_neg h2]
        by_cases h3 : ((alookup path st.originalToTempMap).isSome ||
            (alookup path st.tempToOriginalMap).isSome || closed) = true
        · rw [if_pos h3]
          exact ⟨hnd1, hnd2, hinv⟩
        · rw [if_neg h3]
          by_cases h4 : isSopsEncrypted text = true
          · rw [if_pos h4]
            cases dec with
            | none => exact ⟨hnd1, hnd2, hinv⟩
            | some plain =>
              have hfr : alookup (decryptToTempFile path plain) st.tempToOriginalMap =
                  none := hf path scheme closed text plain rfl
              have hOT : alookup path st.originalToTempMap = none := by
                rcases ho : alookup path st.originalToTempMap with _ | v
                · rfl
                · exact absurd (by rw [ho]; simp) h3
              exact ⟨nodup_keys_ainsert _ _ _ hnd1, nodup_keys_ainsert _ _ _ hnd2,
                InvMaps_insert hinv hOT hfr⟩
          · rw [if_neg h4]
            exact ⟨hnd1, hnd2, hinv⟩
  | saveDoc path text uuid enc =>
    show WellFormed (onDidSaveTextDocument st path text uuid enc)
    unfold onDidSaveTextDocument
    cases hm : alookup path st.tempToOriginalMap with
    | none => exact ⟨hnd1, hnd2, hinv⟩
    | some o => exact ⟨hnd1, hnd2, hinv⟩
  | closeDoc path =>
    show WellFormed (onDidCloseTextDocument st path)
    unfold onDidCloseTextDocument
    split
    · rename_i o hm
      exact ⟨nodup_keys_aerase _ _ hnd1, nodup_keys_aerase _ _ hnd2,
        InvMaps_erase hinv hm⟩
    · rename_i hm
      split
      · rename_i t hm2
        split
        · unfold closeTempCascade
          split
          · rename_i o2 hm3
            have hm3' : alookup t st.tempToOriginalMap = some o2 := hm3
            exact ⟨nodup_keys_aerase _ _ hnd1, nodup_keys_aerase _ _ hnd2,
              InvMaps_erase hinv hm3'⟩
          · exact ⟨hnd1, hnd2, hinv⟩
        · exact ⟨hnd1, hnd2, hinv⟩
      · exact ⟨hnd1, hnd2, hinv⟩
  | focusChange a => exact ⟨hnd1, hnd2, hinv⟩
  | timerFired =>
    show WellFormed (runCleanupTimer st)
    unfold runCleanupTimer
    by_cases h1 : st.isCleaningUp = true
    · rw [if_pos h1]
      exact ⟨hnd1, hnd2, hinv⟩
    · rw [if_neg h1]
      have hall : ∀ p ∈ cleanupSnapshot st, alookup p.1 st.tempToOriginalMap = some p.2 := by
        intro p hp
        exact alookup_eq_some_of_mem_nodup hnd1 (List.mem_of_mem_filter hp)
      have hndL : ((cleanupSnapshot st).map Prod.fst).Nodup :=
        hnd1.sublist (List.Sublist.map Prod.fst (List.filter_sublist _))
      obtain ⟨r1, r2, r3, r4, r5, r6⟩ :=
        cleanupLoop_spec (cleanupSnapshot st) { st with isCleaningUp := true }
          hnd1 hnd2 hinv hall hndL
      exact ⟨r4, r5, r6⟩

/-- Concrete open event for the amended-C2 witness. -/
def exC2Event : SopsEvent := .openDoc "w/s.yaml" "file" false "sops:\n" (some "K: V")

theorem claim_C2_amended_witness :
    (WellFormed initialState ∧ FreshDecrypt exC2Event initialState) ∧
      WellFormed (step exC2Event initialState) := by
  have h1 : WellFormed initialState := by
    refine ⟨List.nodup_nil, List.nodup_nil, fun o w => ?_⟩
    show alookup o [] = some w ↔ alookup w [] = some o
    simp [alookup]
  have h2 : FreshDecrypt exC2Event initialState := fun _ _ _ _ _ _ => rfl
  exact ⟨⟨h1, h2⟩, claim_C2_amended initialState exC2Event h1 h2⟩

/-- Claim C7: when the cleanup timer fires with no cleanup in progress,
every registered pair whose working and original paths both differ from
the focused path is removed from both mappings and its working file is
deleted, while the pair whose working or original path equals the focused
path stays registered on both sides with its working file untouched. -/
theorem claim_C7 (st : SessionState) (t o : String)
    (hguard : st.isCleaningUp = false) (hwf : WellFormed st)
    (hlk : alookup t st.tempToOriginalMap = some o) :
    ((st.activePath ≠ some t ∧ st.activePath ≠ some o) →
        alookup t (runCleanupTimer st).tempToOriginalMap = none ∧
        alookup o (runCleanupTimer st).originalToTempMap = none ∧
        alookup t (runCleanupTimer st).files = none) ∧
    ((st.activePath = some t ∨ st.activePath = some o) →
        alookup t (runCleanupTimer st).tempToOriginalMap = some o ∧
        alookup o (runCleanupTimer st).originalToTempMap = some t ∧
        alookup t (runCleanupTimer st).files = alookup t st.files) := by
  obtain ⟨hnd1, hnd2, hinv⟩ := hwf
  have hg : ¬ st.isCleaningUp = true := by
    rw [hguard]
    exact Bool.false_ne_true
  have hall : ∀ p ∈ cleanupSnapshot st, alookup p.1 st.tempToOriginalMap = some p.2 := by
    intro p hp
    exact alookup_eq_some_of_mem_nodup hnd1 (List.mem_of_mem_filter hp)
  have hndL : ((cleanupSnapshot st).map Prod.fst).Nodup :=
    hnd1.sublist (List.Sublist.map Prod.fst (List.filter_sublist _))
  obtain ⟨r1, r2, r3, _, _, _⟩ :=
    cleanupLoop_spec (cleanupSnapshot st) { st with isCleaningUp := true }
      hnd1 hnd2 hinv hall hndL
  have q1 : (runCleanupTimer st).tempToOriginalMap =
      eraseKeys ((cleanupSnapshot st).map Prod.fst) st.tempToOriginalMap := by
    rw [runCleanupTimer, if_neg hg]
    exact r1
  have q2 : (runCleanupTimer st).originalToTempMap =
      eraseKeys ((cleanupSnapshot st).map Prod.snd) st.originalToTempMap := by
    rw [runCleanupTimer, if_neg hg]
    exact r2
  have q3 : (runCleanupTimer st).files =
      eraseKeys ((cleanupSnapshot st).map Prod.fst) st.files := by
    rw [runCleanupTimer, if_neg hg]
    exact r3
  refine ⟨fun hrem => ?_, fun hkeep => ?_⟩
  · have hmem : (t, o) ∈ cleanupSnapshot st := by
      refine List.mem_filter.2 ⟨mem_of_alookup_eq_some hlk, ?_⟩
      have e1 : (st.activePath == some t) = false := beq_eq_false_iff_ne.mpr hrem.1
      have e2 : (st.activePath == some o) = false := beq_eq_false_iff_ne.mpr hrem.2
      simp [e1, e2]
    have ht : t ∈ (cleanupSnapshot st).map Prod.fst := List.mem_map.2 ⟨(t, o), hmem, rfl⟩
    have ho : o ∈ (cleanupSnapshot st).map Prod.snd := List.mem_map.2 ⟨(t, o), hmem, rfl⟩
    refine ⟨?_, ?_, ?_⟩
    · rw [q1, alookup_eraseKeys, if_pos ht]
    · rw [q2, alookup_eraseKeys, if_pos ho]
    · rw [q3, alookup_eraseKeys, if_pos ht]
  · have hnotclean : (t, o) ∉ cleanupSnapshot st := by
      intro hmem
      have hpred := (List.mem_filter.1 hmem).2
      simp only [Bool.not_eq_eq_eq_not, Bool.not_true, Bool.or_eq_false_iff,
        beq_eq_false_iff_ne] at hpred
      rcases hkeep with hk | hk
      · exact hpred.1 hk
      · exact hpred.2 hk
    have hnt : t ∉ (cleanupSnapshot st).map Prod.fst := by
      intro hmem'
      obtain ⟨q, hq, hq1⟩ := List.mem_map.1 hmem'
      have hlq : alookup q.1 st.tempToOriginalMap = some q.2 :=
        alookup_eq_some_of_mem_nodup hnd1 (List.mem_of_mem_filter hq)
      rw [hq1, hlk] at hlq
      have hq2 : q.2 = o := by
        cases hlq
        rfl
      have : q = (t, o) := Prod.ext hq1 hq2
      exact hnotclean (this ▸ hq)
    have hno : o ∉ (cleanupSnapshot st).map Prod.snd := by
      intro hmem'
      obtain ⟨q, hq, hq2⟩ := List.mem_map.1 hmem'
      have hlq : alookup q.1 st.tempToOriginalMap = some q.2 :=
        alookup_eq_some_of_mem_nodup hnd1 (List.mem_of_mem_filter hq)
      rw [hq2] at hlq
      have hq1 : q.1 = t := by
        have ha := (hinv o q.1).mpr hlq
        have hb := (hinv o t).mpr hlk
        rw [ha] at hb
        cases hb
        rfl
      have : q = (t, o) := Prod.ext hq1 hq2
      exact hnotclean (this ▸ hq)
    refine ⟨?_, ?_, ?_⟩
    · rw [q1, alookup_eraseKeys, if_neg hnt]
      exact hlk
    · rw [q2, alookup_eraseKeys, if_neg hno]
      exact (hinv o t).mpr hlk
    · rw [q3, alookup_eraseKeys, if_neg hnt]

/-- Example state for the C7 witness: two tracked pairs, the working file
of the first being focused, no cleanup in progress. -/
def exC7State : SessionState :=
  ⟨[("a/o1.yaml", "a/o1_decrypted.yaml"), ("b/o2.yaml", "b/o2_decrypted.yaml")],
   [("a/o1_decrypted.yaml", "a/o1.yaml"), ("b/o2_decrypted.yaml", "b/o2.yaml")],
   [("a/o1_decrypted.yaml", "P1"), ("b/o2_decrypted.yaml", "P2")],
   ["a/o1_decrypted.yaml", "b/o2_decrypted.yaml"],
   some "a/o1_decrypted.yaml", false⟩

theorem exC7State_wf : WellFormed exC7State := by
  have h0 : InvMaps ([] : List (String × String)) [] := by
    intro o w
    simp [alookup]
  have h1 := InvMaps_insert (o := "a/o1.yaml") (t := "a/o1_decrypted.yaml") h0 rfl rfl
  have h2 := InvMaps_insert (o := "b/o2.yaml") (t := "b/o2_decrypted.yaml") h1
    (by decide) (by decide)
  exact ⟨by decide, by decide, h2⟩

theorem claim_C7_witness :
    (exC7State.isCleaningUp = false ∧ WellFormed exC7State ∧
      alookup "b/o2_decrypted.yaml" exC7State.tempToOriginalMap = some "b/o2.yaml" ∧
      alookup "a/o1_decrypted.yaml" exC7State.tempToOriginalMap = some "a/o1.yaml") ∧
    (alookup "b/o2_decrypted.yaml" (runCleanupTimer exC7State).tempToOriginalMap = none ∧
      alookup "b/o2.yaml" (runCleanupTimer exC7State).originalToTempMap = none ∧
      alookup "b/o2_decrypted.yaml" (runCleanupTimer exC7State).files = none) ∧
    (alookup "a/o1_decrypted.yaml" (runCleanupTimer exC7State).tempToOriginalMap =
        some "a/o1.yaml" ∧
      alookup "a/o1.yaml" (runCleanupTimer exC7State).originalToTempMap =
        some "a/o1_decrypted.yaml" ∧
      alookup "a/o1_decrypted.yaml" (runCleanupTimer exC7State).files =
        alookup "a/o1_decrypted.yaml" exC7State.files) := by
  refine ⟨⟨rfl, exC7State_wf, by decide, by decide⟩, ?_, ?_⟩
  · exact (claim_C7 exC7State "b/o2_decrypted.yaml" "b/o2.yaml" rfl exC7State_wf
      (by decide)).1 ⟨by decide, by decide⟩
  · exact (claim_C7 exC7State "a/o1_decrypted.yaml" "a/o1.yaml" rfl exC7State_wf
      (by decide)).2 (Or.inl (by decide))

end VSCodeSops
